import Mathlib
/-!
Verification of `words.py`, a sitemap-driven crawler that tallies capitalized
words (excluding sentence-initial ones) into a ranked report.

The embedding is shallow:

* Python's `collections.Counter` is modelled as an association list
  `List (String × Int)` with first-match lookup and replace-first insertion,
  mirroring dict semantics (`Counter.get`, `Counter.set`, `Counter.incr`,
  `Counter.update`).
* The two regular expressions of the source
  (`re.findall(r"\b[A-Z][a-zA-Z]{2,}\b", ...)` and
  `re.split(r'(?<=[.!?])\s+', ...)`) are modelled as character-level scanners
  over `List Char`.  The scanners are written with an explicit fuel argument
  (initially the length of the input) so that they are structurally recursive
  and evaluate by `decide`; fuel-congruence lemmas recover the natural
  unfolding equations.  The embedding models the ASCII fragment of Python's
  `\w`/`\s`/`\b` semantics: a word character is `[A-Za-z0-9_]` and whitespace
  is `[ \t\n\r\x0b\x0c]`.
* HTML documents (the result of `BeautifulSoup(resp.text, 'html.parser')`)
  and sitemap XML documents (the result of `ET.fromstring`) are modelled as
  finite trees; the library parsers themselves are external collaborators and
  are not modelled.
* HTTP fetches are modelled by passing the fetch outcome as a value:
  `none` / `.err` stands for a raised `requests.RequestException`
  (transport failure or `raise_for_status` on a non-success status).
* Log emission is modelled by returning the list of levels of the log lines
  a call emits.
-/

/-- `collections.Counter` (restricted to `String` keys and integer values),
modelled as an association list in insertion order. -/
abbrev Counter := List (String × Int)

/-- The empty counter, `Counter()`. -/
def Counter.empty : Counter := []

/-- `counter[w]` on the reading side: `Counter.__missing__` returns `0` for an
absent key, and dict lookup finds the (unique, but we do not bake that in)
binding for `w`. -/
def Counter.get : Counter → String → Int
  | [], _ => 0
  | p :: ps, w => if p.1 = w then p.2 else Counter.get ps w

/-- `counter[w] = v`: replace the existing binding in place (dicts keep the
original position of an updated key) or append a fresh binding. -/
def Counter.set : Counter → String → Int → Counter
  | [], w, v => [(w, v)]
  | p :: ps, w, v => if p.1 = w then (w, v) :: ps else p :: Counter.set ps w v

/-- `counter[w] += 1` (line 62 of `words.py`). -/
def Counter.incr (c : Counter) (w : String) : Counter :=
  Counter.set c w (Counter.get c w + 1)

/-- `self.update(other)` for Counters: for each binding of `other` in
insertion order, add its count to `self`'s count for that key, inserting the
key if absent (line 95 of `words.py`). -/
def Counter.update (c other : Counter) : Counter :=
  other.foldl (fun acc p => Counter.set acc p.1 (Counter.get acc p.1 + p.2)) c

/-- The multiset of keys of a counter, in insertion order. -/
def Counter.keys (c : Counter) : List String := c.map Prod.fst

/-- A genuine `Counter` never holds two bindings for the same key. -/
def Counter.NodupKeys (c : Counter) : Prop := c.keys.Nodup

/-- Sum of all stored counts. -/
def Counter.total (c : Counter) : Int := (c.map Prod.snd).sum

/-- All stored counts are strictly positive. -/
def Counter.AllPos (c : Counter) : Prop := ∀ p ∈ c, 0 < p.2

/-- A word character of Python's `\w` / `\b` (ASCII fragment): `[A-Za-z0-9_]`. -/
def isWordChar (c : Char) : Bool := c.isAlpha || c.isDigit || c = '_'

/-- Python's `\s` (ASCII fragment): space, tab, newline, carriage return,
vertical tab, form feed. -/
def isPySpace (c : Char) : Bool :=
  c = ' ' || c = '\t' || c = '\n' || c = '\r' || c = '\x0b' || c = '\x0c'

/-- The sentence-ending punctuation of the splitting regex: `[.!?]`. -/
def isSentPunct (c : Char) : Bool := c = '.' || c = '!' || c = '?'

/-- `\b` holds before the current character given the preceding one
(`none` = start of string). -/
def prevOk : Option Char → Bool
  | none => true
  | some p => !isWordChar p

/-- `\b` holds at the position just before this suffix (used after a run of
word characters, so the boundary requires the suffix to start with a non-word
character or be the end of the string). -/
def boundaryAt : List Char → Bool
  | [] => true
  | c :: _ => !isWordChar c

/-- Scanner for `re.findall(r"\b[A-Z][a-zA-Z]{2,}\b", sentence)` (line 59 of
`words.py`), with explicit fuel.  At a word boundary followed by an uppercase
letter, the scanner greedily takes the following ASCII letters; the match
succeeds when at least two letters follow and the character after them (if
any) is a non-word character — backtracking inside the letter run can never
restore the trailing `\b`, because letter/letter positions are not
boundaries.  On failure the scan advances one character, carrying the
previous character for the `\b` lookbehind. -/
def findallF : Nat → Option Char → List Char → List (List Char)
  | 0, _, _ => []
  | _+1, _, [] => []
  | f+1, prev, c :: cs =>
    if prevOk prev && c.isUpper then
      if 2 ≤ (cs.takeWhile Char.isAlpha).length ∧ boundaryAt (cs.dropWhile Char.isAlpha) = true then
        (c :: cs.takeWhile Char.isAlpha) ::
          findallF f (some ((cs.takeWhile Char.isAlpha).getLastD c)) (cs.dropWhile Char.isAlpha)
      else findallF f (some c) cs
    else findallF f (some c) cs

/-- `re.findall(r"\b[A-Z][a-zA-Z]{2,}\b", s)` on a character list. -/
def findall (s : List Char) : List (List Char) := findallF s.length none s

/-- Run the findall scanner from an arbitrary previous-character context. -/
def findallAux (prev : Option Char) (s : List Char) : List (List Char) :=
  findallF s.length prev s

/-- Scanner for the maximal runs of word characters of a string (the
substrings delimited by `\b` out of which the token regex can select its
matches), with explicit fuel. -/
def runsF : Nat → List Char → List (List Char)
  | 0, _ => []
  | _+1, [] => []
  | f+1, c :: cs =>
    if isWordChar c then (c :: cs.takeWhile isWordChar) :: runsF f (cs.dropWhile isWordChar)
    else runsF f cs

/-- The maximal word-character runs of a string, in order of occurrence. -/
def runs (s : List Char) : List (List Char) := runsF s.length s

/-- A token qualifies for counting (spec reading): length at least 3, starts
with an uppercase ASCII letter, and is entirely ASCII-alphabetic. -/
def qualifies (r : List Char) : Bool :=
  decide (3 ≤ r.length) && (r.headD 'a').isUpper && r.all Char.isAlpha

/-- Scanner for `re.split(r'(?<=[.!?])\s+', text)` (line 53 of `words.py`),
with explicit fuel: a split point is a maximal whitespace run whose first
character is immediately preceded by `.`, `!` or `?`; the lookbehind carries
the previously consumed character. -/
def sentencesF : Nat → Option Char → List Char → List Char → List (List Char)
  | 0, _, acc, _ => [acc.reverse]
  | _+1, _, acc, [] => [acc.reverse]
  | f+1, prev, acc, c :: cs =>
    if isPySpace c && (match prev with | none => false | some p => isSentPunct p) then
      acc.reverse :: sentencesF f (some ((c :: cs.takeWhile isPySpace).getLastD c)) []
        (cs.dropWhile isPySpace)
    else sentencesF f (some c) (c :: acc) cs

/-- `re.split(r'(?<=[.!?])\s+', s)` on a character list. -/
def sentSplit (s : List Char) : List (List Char) := sentencesF s.length none [] s

/-- The tokens found in one sentence by line 59 of `words.py`
(`words = re.findall(r"\b[A-Z][a-zA-Z]{2,}\b", sentence)`), as strings. -/
def sentWords (s : List Char) : List String := (findall s).map (fun r => String.mk r)

/-- Lines 61–62 of `words.py`: `for word in words[1:]: counter[word] += 1`. -/
def procSentence (c : Counter) (s : List Char) : Counter :=
  ((sentWords s).drop 1).foldl Counter.incr c

/-- Lines 53–64 of `words.py`: split the extracted text into sentences and
count qualifying words from the second onwards of each sentence. -/
def countText (t : String) : Counter :=
  (sentSplit t.toList).foldl procSentence Counter.empty

/-- A node of the parsed HTML document (`BeautifulSoup` tree): a text node or
an element with a tag name and children.  A document is a list of top-level
nodes. -/
inductive HtmlNode where
  | text : String → HtmlNode
  | elem : String → List HtmlNode → HtmlNode

/-- Lines 48–49 of `words.py`:
`for tag in soup(['script', 'style']): tag.extract()` — every `script` or
`style` element is removed together with its entire contents. -/
def removeSS : List HtmlNode → List HtmlNode
  | [] => []
  | HtmlNode.text s :: rest => HtmlNode.text s :: removeSS rest
  | HtmlNode.elem t ch :: rest =>
    if t = "script" ∨ t = "style" then removeSS rest
    else HtmlNode.elem t (removeSS ch) :: removeSS rest

/-- The document-order list of text-node contents of a forest
(`soup.strings`). -/
def textsList : List HtmlNode → List String
  | [] => []
  | HtmlNode.text s :: rest => s :: textsList rest
  | HtmlNode.elem _ ch :: rest => textsList ch ++ textsList rest

/-- Line 50 of `words.py`: `soup.get_text(separator=' ')` joins all text-node
contents with a single space. -/
def getText (doc : List HtmlNode) : String := String.intercalate " " (textsList doc)

/-- Levels of the log lines a call emits. -/
inductive LogLevel where
  | info : LogLevel
  | warning : LogLevel
  | error : LogLevel
deriving DecidableEq

/-- `process_url` (lines 33–64 of `words.py`) as a function of the fetch
outcome: `none` models a raised `requests.RequestException` (network error or
non-success status via `raise_for_status`), `some doc` a successfully fetched
page whose HTML parses to the forest `doc`. -/
def process_url : Option (List HtmlNode) → Counter
  | none => Counter.empty
  | some doc => countText (getText (removeSS doc))

/-- The log lines `process_url` emits (line 44: a warning on fetch failure). -/
def process_url_logs : Option (List HtmlNode) → List LogLevel
  | none => [LogLevel.warning]
  | some _ => []

/-- An element of the parsed sitemap XML (`xml.etree.ElementTree`): a tag (in
`{namespace}tag` form, as ElementTree renders qualified names), an optional
text content (`None` when the element has no leading text node), and child
elements. -/
inductive XmlElem where
  | mk : String → Option String → List XmlElem → XmlElem

def XmlElem.tag : XmlElem → String
  | XmlElem.mk t _ _ => t

def XmlElem.text : XmlElem → Option String
  | XmlElem.mk _ x _ => x

def XmlElem.children : XmlElem → List XmlElem
  | XmlElem.mk _ _ ch => ch

/-- The qualified tag the reader searches for. -/
def locTag : String := "{http://www.sitemaps.org/schemas/sitemap/0.9}loc"

/-- `root.findall('.//{ns}loc')` over a forest: every element with the `loc`
tag at any depth, in document order (the root itself is excluded by `.//`, so
the reader applies this to the root's children). -/
def findallLoc : List XmlElem → List XmlElem
  | [] => []
  | XmlElem.mk t x ch :: rest =>
    (if t = locTag then [XmlElem.mk t x ch] else []) ++ findallLoc ch ++ findallLoc rest

/-- Python `str.strip()` (ASCII-whitespace fragment). -/
def pyStrip (s : String) : String :=
  String.mk (((s.toList.dropWhile isPySpace).reverse.dropWhile isPySpace).reverse)

/-- Line 28 of `words.py`:
`[loc.text.strip() for loc in root.findall('.//{ns}loc') if loc.text]`.
The filter is Python truthiness on the *untrimmed* text: `None` and the empty
string are falsy, but whitespace-only text is truthy and survives as `""`
after `strip()`. -/
def get_urls_from_sitemap (root : XmlElem) : List String :=
  (findallLoc root.children).filterMap (fun e =>
    match e.text with
    | none => none
    | some t => if t = "" then none else some (pyStrip t))

/-- The Sitemap Reader as claim C4 words it: the trimmed text content of
every `loc` element in document order, with empty and missing values
discarded. -/
def fetchSitemapURLs_claimed (root : XmlElem) : List String :=
  (findallLoc root.children).filterMap (fun e =>
    match e.text with
    | none => none
    | some t => if pyStrip t = "" then none else some (pyStrip t))

/-- Outcome of fetching and parsing one sitemap: `err` models a raised
`requests.RequestException` (lines 16–20), `ok none` a body that
`ET.fromstring` rejects with a `ParseError` (lines 22–26), `ok (some root)` a
well-formed document. -/
inductive SitemapFetch where
  | err : SitemapFetch
  | ok : Option XmlElem → SitemapFetch

/-- `get_urls_from_sitemap` (lines 11–30) as a function of the fetch
outcome. -/
def get_urls_result : SitemapFetch → List String
  | SitemapFetch.err => []
  | SitemapFetch.ok none => []
  | SitemapFetch.ok (some root) => get_urls_from_sitemap root

/-- The log lines the sitemap reader emits: an error for a failed download
(line 19) or a parse failure (line 25), an info line with the URL count on
success (line 29). -/
def get_urls_logs : SitemapFetch → List LogLevel
  | SitemapFetch.err => [LogLevel.error]
  | SitemapFetch.ok none => [LogLevel.error]
  | SitemapFetch.ok (some _) => [LogLevel.info]

/-- Stable insertion of an entry into a count-descending list: the entry goes
after every entry of greater or equal count.  Folding this from the right
reproduces Python's stable `sorted(self.items(), key=itemgetter(1),
reverse=True)`, which is what `Counter.most_common()` runs: ties keep
insertion order. -/
def insertByCount (p : String × Int) : List (String × Int) → List (String × Int)
  | [] => [p]
  | q :: qs => if q.2 ≤ p.2 then p :: q :: qs else q :: insertByCount p qs

/-- `total_counter.most_common()` (line 105 of `words.py`). -/
def Counter.most_common (c : Counter) : List (String × Int) :=
  c.foldr insertByCount []

/-- Lines 104–106 of `words.py`: the exact content written to
`word_counts.txt`, one `f"{word}\t{count}\n"` line per entry of
`most_common()`. -/
def writeReport (c : Counter) : String :=
  ((Counter.most_common c).map (fun p => p.1 ++ "\t" ++ toString p.2 ++ "\n")).foldl
    (fun acc l => acc ++ l) ""

/-- The external world `main` runs against: the outcome of each sitemap
fetch, the outcome of each page fetch, and whether writing the report file
succeeds (`false` models an `IOError` from `open`/`write`). -/
structure Env where
  sitemapFetch : String → SitemapFetch
  pageFetch : String → Option (List HtmlNode)
  writeOk : Bool

/-- The hardcoded sitemap list (lines 75–78 of `words.py`). -/
def sitemap_urls : List String :=
  ["https://consulente-finanziario.org/post-sitemap.xml",
   "https://consulente-finanziario.org/post-sitemap2.xml"]

/-- Lines 82–84: `all_urls.extend(get_urls_from_sitemap(sm, session))`. -/
def mainURLs (env : Env) : List String :=
  sitemap_urls.foldl (fun acc sm => acc ++ get_urls_result (env.sitemapFetch sm)) []

/-- Lines 89–99: fold every completed page's counter into the shared total
with `total_counter.update(...)`.  The list argument carries the per-page
fetch outcomes in completion order. -/
def crawlFold (pages : List (Option (List HtmlNode))) : Counter :=
  pages.foldl (fun acc f => Counter.update acc (process_url f)) Counter.empty

/-- Lines 67–113 of `main`, abstracted over the environment: the produced
total counter and the process exit status (`sys.exit(1)` on report-write
IOError at line 110; otherwise `main` returns normally and the process exits
0 after the final `input()`).  Every per-sitemap and per-page failure has
already been absorbed inside `get_urls_result` / `process_url`, which are
total, so no other exit path exists. -/
def mainRun (env : Env) : Counter × Nat :=
  (crawlFold ((mainURLs env).map env.pageFetch), if env.writeOk then 0 else 1)

/-- The log level of `main`'s final report line: the confirmation at
line 107, or the error at line 109 before `sys.exit(1)`. -/
def mainWriteLog (env : Env) : LogLevel :=
  if env.writeOk then LogLevel.info else LogLevel.error

/-- The fold of line 95 (`total_counter.update(future.result())`) abstracted
to the list of per-page counters in completion order. -/
def mergeAll (l : List Counter) : Counter := l.foldl Counter.update Counter.empty

/-- All qualifying tokens of a fetched page, sentence by sentence, on the
script/style-free text the extractor counts from. -/
def pageTokens (doc : List HtmlNode) : List String :=
  ((sentSplit (getText (removeSS doc)).toList).map sentWords).flatten

/-- Two HTML forests that agree everywhere except, possibly, in the contents
of `script` and `style` elements. -/
def agreeOutsideSS : List HtmlNode → List HtmlNode → Bool
  | [], [] => true
  | HtmlNode.text s :: r, HtmlNode.text s' :: r' =>
    (s = s') && agreeOutsideSS r r'
  | HtmlNode.elem t ch :: r, HtmlNode.elem t' ch' :: r' =>
    (t = t') && ((t = "script" ∨ t = "style") || agreeOutsideSS ch ch') && agreeOutsideSS r r'
  | _, _ => false

/-- All elements of a forest in document order (preorder traversal). -/
def preorder : List XmlElem → List XmlElem
  | [] => []
  | XmlElem.mk t x ch :: rest => XmlElem.mk t x ch :: (preorder ch ++ preorder rest)

theorem Counter.keys_cons (p : String × Int) (ps : Counter) :
    Counter.keys (p :: ps) = p.1 :: Counter.keys ps := rfl

theorem Counter.total_cons (p : String × Int) (ps : Counter) :
    Counter.total (p :: ps) = p.2 + Counter.total ps := by
  simp [Counter.total]

theorem Counter.get_set (c : Counter) (u : String) (v : Int) (w : String) :
    Counter.get (Counter.set c u v) w = if u = w then v else Counter.get c w := by
  induction c with
  | nil =>
    by_cases h : u = w <;> simp [Counter.set, Counter.get, h]
  | cons p ps ih =>
    by_cases hp : p.1 = u
    · subst hp
      by_cases h : p.1 = w <;> simp [Counter.set, Counter.get, h]
    · by_cases h : p.1 = w
      · have hn : ¬ u = w := fun e => hp (by rw [e, h])
        have hwu : ¬ w = u := fun e => hp (by rw [h, e])
        rw [if_neg hn]
        simp [Counter.set, Counter.get, hwu, h]
      · simp [Counter.set, Counter.get, hp, h, ih]

theorem Counter.get_incr (c : Counter) (u w : String) :
    Counter.get (Counter.incr c u) w =
      if u = w then Counter.get c w + 1 else Counter.get c w := by
  unfold Counter.incr
  rw [Counter.get_set]
  by_cases h : u = w <;> simp [h]

theorem Counter.mem_keys_set (c : Counter) (u : String) (v : Int) (w : String)
    (h : w ∈ Counter.keys (Counter.set c u v)) : w ∈ Counter.keys c ∨ w = u := by
  induction c with
  | nil =>
    simp [Counter.set, Counter.keys] at h
    exact Or.inr h
  | cons p ps ih =>
    by_cases hp : p.1 = u
    · rw [show Counter.set (p :: ps) u v = (u, v) :: ps by simp [Counter.set, hp],
        Counter.keys_cons] at h
      rcases List.mem_cons.mp h with h | h
      · exact Or.inr h
      · exact Or.inl (by rw [Counter.keys_cons]; exact List.mem_cons_of_mem _ h)
    · rw [show Counter.set (p :: ps) u v = p :: Counter.set ps u v by simp [Counter.set, hp],
        Counter.keys_cons] at h
      rcases List.mem_cons.mp h with h | h
      · exact Or.inl (by rw [Counter.keys_cons]; exact h ▸ List.mem_cons_self _ _)
      · rcases ih h with h' | h'
        · exact Or.inl (by rw [Counter.keys_cons]; exact List.mem_cons_of_mem _ h')
        · exact Or.inr h'

theorem Counter.get_eq_zero_of_not_mem (c : Counter) (w : String)
    (h : w ∉ Counter.keys c) : Counter.get c w = 0 := by
  induction c with
  | nil => rfl
  | cons p ps ih =>
    rw [Counter.keys_cons] at h
    have h1 : ¬ p.1 = w := fun e => h (e ▸ List.mem_cons_self _ _)
    have h2 : w ∉ Counter.keys ps := fun m => h (List.mem_cons_of_mem _ m)
    simp [Counter.get, h1, ih h2]

theorem Counter.total_incr (c : Counter) (w : String) :
    Counter.total (Counter.incr c w) = Counter.total c + 1 := by
  unfold Counter.incr
  induction c with
  | nil => simp [Counter.set, Counter.get, Counter.total]
  | cons p ps ih =>
    by_cases hp : p.1 = w
    · rw [show Counter.get (p :: ps) w = p.2 by simp [Counter.get, hp],
        show Counter.set (p :: ps) w (p.2 + 1) = (w, p.2 + 1) :: ps by simp [Counter.set, hp],
        Counter.total_cons, Counter.total_cons]
      ring
    · rw [show Counter.get (p :: ps) w = Counter.get ps w by simp [Counter.get, hp],
        show Counter.set (p :: ps) w (Counter.get ps w + 1)
          = p :: Counter.set ps w (Counter.get ps w + 1) by simp [Counter.set, hp],
        Counter.total_cons, Counter.total_cons]
      rw [ih]
      ring

theorem Counter.get_update (a b : Counter) (hb : Counter.NodupKeys b) (w : String) :
    Counter.get (Counter.update a b) w = Counter.get a w + Counter.get b w := by
  induction b generalizing a with
  | nil => simp [Counter.update, Counter.get]
  | cons p ps ih =>
    have hnd : Counter.NodupKeys ps := by
      simpa [Counter.NodupKeys, Counter.keys] using (List.nodup_cons.mp hb).2
    have hnm : p.1 ∉ Counter.keys ps := by
      simpa [Counter.NodupKeys, Counter.keys] using (List.nodup_cons.mp hb).1
    show Counter.get (Counter.update (Counter.set a p.1 (Counter.get a p.1 + p.2)) ps) w = _
    rw [ih _ hnd, Counter.get_set]
    by_cases h : p.1 = w
    · have : Counter.get ps w = 0 := Counter.get_eq_zero_of_not_mem ps w (h ▸ hnm)
      simp [Counter.get, h, this]
    · simp [Counter.get, h]

theorem Counter.get_nonneg (c : Counter) (hc : Counter.AllPos c) (w : String) :
    0 ≤ Counter.get c w := by
  induction c with
  | nil => simp [Counter.get]
  | cons p ps ih =>
    by_cases h : p.1 = w
    · simp [Counter.get, h]
      exact Int.le_of_lt (hc p (by simp))
    · simp [Counter.get, h]
      exact ih (fun q hq => hc q (by simp [hq]))

theorem Counter.allPos_set (c : Counter) (u : String) (v : Int) (hv : 0 < v)
    (hc : Counter.AllPos c) : Counter.AllPos (Counter.set c u v) := by
  induction c with
  | nil =>
    intro p hp
    simp [Counter.set] at hp
    simp [hp, hv]
  | cons q qs ih =>
    intro p hp
    by_cases h : q.1 = u
    · simp [Counter.set, h] at hp
      rcases hp with hp | hp
      · simp [hp, hv]
      · exact hc p (by simp [hp])
    · simp [Counter.set, h] at hp
      rcases hp with hp | hp
      · exact hc p (by simp [hp])
      · exact ih (fun r hr => hc r (by simp [hr])) p hp

theorem Counter.allPos_incr (c : Counter) (w : String) (hc : Counter.AllPos c) :
    Counter.AllPos (Counter.incr c w) := by
  unfold Counter.incr
  have := Counter.get_nonneg c hc w
  exact Counter.allPos_set c w _ (by omega) hc

theorem Counter.allPos_update (a b : Counter) (ha : Counter.AllPos a)
    (hb : Counter.AllPos b) : Counter.AllPos (Counter.update a b) := by
  induction b generalizing a with
  | nil => exact ha
  | cons p ps ih =>
    show Counter.AllPos (Counter.update (Counter.set a p.1 (Counter.get a p.1 + p.2)) ps)
    have hp : 0 < p.2 := hb p (by simp)
    have hga := Counter.get_nonneg a ha p.1
    exact ih _ (Counter.allPos_set a p.1 _ (by omega) ha)
      (fun q hq => hb q (by simp [hq]))

/-- Helper: `dropWhile` never lengthens a list. -/
theorem length_dropWhile_le (p : Char → Bool) : ∀ l : List Char,
    (l.dropWhile p).length ≤ l.length
  | [] => Nat.le_refl _
  
  | a :: l => by
    rw [List.dropWhile_cons]
    split
    · exact Nat.le_succ_of_le (length_dropWhile_le p l)
    · exact Nat.le_refl _

theorem findallF_congr : ∀ f₁ f₂ : Nat, ∀ prev : Option Char, ∀ s : List Char,
    s.length ≤ f₁ → s.length ≤ f₂ → findallF f₁ prev s = findallF f₂ prev s
  | 0, f₂, prev, s, h₁, _ => by
    have hs : s = [] := List.eq_nil_of_length_eq_zero (Nat.le_zero.mp h₁)
    subst hs
    cases f₂ <;> rfl
  | f₁+1, 0, prev, s, _, h₂ => by
    have hs : s = [] := List.eq_nil_of_length_eq_zero (Nat.le_zero.mp h₂)
    subst hs; rfl
  | f₁+1, f₂+1, prev, [], _, _ => rfl
  | f₁+1, f₂+1, prev, c :: cs, h₁, h₂ => by
    have hc₁ : cs.length ≤ f₁ := Nat.le_of_succ_le_succ h₁
    have hc₂ : cs.length ≤ f₂ := Nat.le_of_succ_le_succ h₂
    have hd₁ : (cs.dropWhile Char.isAlpha).length ≤ f₁ :=
      Nat.le_trans (length_dropWhile_le _ _) hc₁
    have hd₂ : (cs.dropWhile Char.isAlpha).length ≤ f₂ :=
      Nat.le_trans (length_dropWhile_le _ _) hc₂
    simp only [findallF]
    split
    · split
      · rw [findallF_congr f₁ f₂ _ _ hd₁ hd₂]
      · exact findallF_congr f₁ f₂ _ _ hc₁ hc₂
    · exact findallF_congr f₁ f₂ _ _ hc₁ hc₂

theorem findallAux_nil (prev : Option Char) : findallAux prev [] = [] := rfl

theorem findallAux_cons (prev : Option Char) (c : Char) (cs : List Char) :
    findallAux prev (c :: cs) =
      if prevOk prev && c.isUpper then
        if 2 ≤ (cs.takeWhile Char.isAlpha).length ∧
            boundaryAt (cs.dropWhile Char.isAlpha) = true then
          (c :: cs.takeWhile Char.isAlpha) ::
            findallAux (some ((cs.takeWhile Char.isAlpha).getLastD c)) (cs.dropWhile Char.isAlpha)
        else findallAux (some c) cs
      else findallAux (some c) cs := by
  show findallF (cs.length + 1) prev (c :: cs) = _
  simp only [findallF]
  split
  · split
    · rw [findallF_congr cs.length (cs.dropWhile Char.isAlpha).length _ _
        (length_dropWhile_le _ _) (Nat.le_refl _)]
      rfl
    · rfl
  · rfl

theorem findall_eq_aux (s : List Char) : findall s = findallAux none s := rfl

theorem runsF_congr : ∀ f₁ f₂ : Nat, ∀ s : List Char, s.length ≤ f₁ → s.length ≤ f₂ →
    runsF f₁ s = runsF f₂ s
  | 0, f₂, s, h₁, _ => by
    have hs : s = [] := List.eq_nil_of_length_eq_zero (Nat.le_zero.mp h₁)
    subst hs
    cases f₂ <;> rfl
  | f₁+1, 0, s, _, h₂ => by
    have hs : s = [] := List.eq_nil_of_length_eq_zero (Nat.le_zero.mp h₂)
    subst hs; rfl
  | f₁+1, f₂+1, [], _, _ => rfl
  | f₁+1, f₂+1, c :: cs, h₁, h₂ => by
    have hc₁ : cs.length ≤ f₁ := Nat.le_of_succ_le_succ h₁
    have hc₂ : cs.length ≤ f₂ := Nat.le_of_succ_le_succ h₂
    simp only [runsF]
    split
    · rw [runsF_congr f₁ f₂ (cs.dropWhile isWordChar)
        (Nat.le_trans (length_dropWhile_le _ _) hc₁)
        (Nat.le_trans (length_dropWhile_le _ _) hc₂)]
    · exact runsF_congr f₁ f₂ cs hc₁ hc₂

theorem runs_nil : runs [] = [] := rfl

theorem runs_cons (c : Char) (cs : List Char) :
    runs (c :: cs) =
      if isWordChar c then (c :: cs.takeWhile isWordChar) :: runs (cs.dropWhile isWordChar)
      else runs cs := by
  show runsF (cs.length + 1) (c :: cs) = _
  simp only [runsF]
  split
  · rw [runsF_congr cs.length (cs.dropWhile isWordChar).length (cs.dropWhile isWordChar)
      (length_dropWhile_le _ _) (Nat.le_refl _)]
    rfl
  · exact runsF_congr cs.length cs.length cs (Nat.le_refl _) (Nat.le_refl _)

theorem sentencesF_congr : ∀ f₁ f₂ : Nat, ∀ prev : Option Char, ∀ acc s : List Char,
    s.length ≤ f₁ → s.length ≤ f₂ → sentencesF f₁ prev acc s = sentencesF f₂ prev acc s
  | 0, f₂, prev, acc, s, h₁, _ => by
    have hs : s = [] := List.eq_nil_of_length_eq_zero (Nat.le_zero.mp h₁)
    subst hs
    cases f₂ <;> rfl
  | f₁+1, 0, prev, acc, s, _, h₂ => by
    have hs : s = [] := List.eq_nil_of_length_eq_zero (Nat.le_zero.mp h₂)
    subst hs; rfl
  | f₁+1, f₂+1, prev, acc, [], _, _ => rfl
  | f₁+1, f₂+1, prev, acc, c :: cs, h₁, h₂ => by
    have hc₁ : cs.length ≤ f₁ := Nat.le_of_succ_le_succ h₁
    have hc₂ : cs.length ≤ f₂ := Nat.le_of_succ_le_succ h₂
    simp only [sentencesF]
    split
    · rw [sentencesF_congr f₁ f₂ _ _ (cs.dropWhile isPySpace)
        (Nat.le_trans (length_dropWhile_le _ _) hc₁)
        (Nat.le_trans (length_dropWhile_le _ _) hc₂)]
    · exact sentencesF_congr f₁ f₂ _ _ cs hc₁ hc₂

theorem isWordChar_of_isUpper (c : Char) (h : c.isUpper = true) : isWordChar c = true := by
  simp [isWordChar, Char.isAlpha, h]

theorem isWordChar_of_isAlpha (c : Char) (h : c.isAlpha = true) : isWordChar c = true := by
  simp [isWordChar, h]

theorem isUpper_false_of_not_word (c : Char) (h : isWordChar c = false) : c.isUpper = false := by
  cases hu : c.isUpper
  · rfl
  · rw [isWordChar_of_isUpper c hu] at h
    exact absurd h (by simp)

/-- At a position whose next character is a non-word character (or the end of
the string), the lookbehind context is irrelevant to the findall scanner. -/
theorem findallAux_boundary_irrel (X : List Char) (hb : boundaryAt X = true)
    (p q : Char) : findallAux (some p) X = findallAux (some q) X := by
  cases X with
  | nil => rfl
  | cons x xs =>
    have hxw : isWordChar x = false := by simpa [boundaryAt] using hb
    have hxu : x.isUpper = false := isUpper_false_of_not_word x hxw
    rw [findallAux_cons, findallAux_cons]
    simp [hxu]

/-- Inside a run of word characters no `\b` holds, so the scanner emits
nothing until the run ends. -/
theorem findallAux_skip_run : ∀ cs : List Char, ∀ p : Char, isWordChar p = true →
    findallAux (some p) cs = findallAux (some '.') (cs.dropWhile isWordChar)
  | [], p, _ => rfl
  | c :: cs, p, hp => by
    by_cases hw : isWordChar c
    · rw [List.dropWhile_cons_of_pos hw, findallAux_cons]
      have : prevOk (some p) = false := by simp [prevOk, hp]
      rw [if_neg (by simp [this])]
      exact findallAux_skip_run cs c hw
    · rw [List.dropWhile_cons_of_neg (by simp [hw]), findallAux_cons, findallAux_cons]
      have hcu : c.isUpper = false := isUpper_false_of_not_word c (by simp [hw])
      simp [hcu]

/-- When the character after the maximal letter prefix is not a word
character, the maximal word-character prefix coincides with the maximal
letter prefix. -/
theorem takeDrop_agree : ∀ cs : List Char, boundaryAt (cs.dropWhile Char.isAlpha) = true →
    cs.takeWhile isWordChar = cs.takeWhile Char.isAlpha ∧
      cs.dropWhile isWordChar = cs.dropWhile Char.isAlpha
  | [], _ => ⟨rfl, rfl⟩
  | c :: cs, hb => by
    by_cases ha : Char.isAlpha c
    · rw [List.dropWhile_cons_of_pos ha] at hb
      obtain ⟨hT, hD⟩ := takeDrop_agree cs hb
      have hw : isWordChar c = true := isWordChar_of_isAlpha c ha
      rw [List.takeWhile_cons_of_pos hw, List.takeWhile_cons_of_pos ha,
        List.dropWhile_cons_of_pos hw, List.dropWhile_cons_of_pos ha, hT, hD]
      exact ⟨rfl, rfl⟩
    · rw [List.dropWhile_cons_of_neg (by simp [ha])] at hb
      have hw : isWordChar c = false := by simpa [boundaryAt] using hb
      rw [List.takeWhile_cons_of_neg (by simp [hw]), List.takeWhile_cons_of_neg (by simp [ha]),
        List.dropWhile_cons_of_neg (by simp [hw]), List.dropWhile_cons_of_neg (by simp [ha])]
      exact ⟨rfl, rfl⟩

/-- When the character after the maximal letter prefix is a word character
(a digit or underscore), the enclosing word-character run contains a
non-letter. -/
theorem run_not_all_alpha : ∀ cs : List Char, boundaryAt (cs.dropWhile Char.isAlpha) = false →
    (cs.takeWhile isWordChar).all Char.isAlpha = false
  | [], hb => by simp [boundaryAt] at hb
  | c :: cs, hb => by
    by_cases ha : Char.isAlpha c
    · rw [List.dropWhile_cons_of_pos ha] at hb
      rw [List.takeWhile_cons_of_pos (isWordChar_of_isAlpha c ha)]
      simp [run_not_all_alpha cs hb]
    · rw [List.dropWhile_cons_of_neg (by simp [ha])] at hb
      have hw : isWordChar c = true := by simpa [boundaryAt] using hb
      rw [List.takeWhile_cons_of_pos hw]
      simp [ha]

theorem all_alpha_takeWhile (cs : List Char) : (cs.takeWhile Char.isAlpha).all Char.isAlpha = true := by
  rw [List.all_eq_true]
  intro x hx
  exact List.mem_takeWhile_imp hx

/-- The findall scanner, started at a word boundary, returns exactly the
maximal word-character runs that qualify (length ≥ 3, uppercase start,
all-alphabetic), in order. -/
theorem findallAux_eq_filter_runs : ∀ n : Nat, ∀ s : List Char, s.length ≤ n →
    ∀ prev : Option Char, prevOk prev = true → findallAux prev s = (runs s).filter qualifies
  | _, [], _, prev, _ => by simp [findallAux_nil, runs_nil]
  | 0, c :: cs, h, _, _ => by simp at h
  | n+1, c :: cs, h, prev, hprev => by
    have hcs : cs.length ≤ n := Nat.le_of_succ_le_succ h
    have hdw : (cs.dropWhile isWordChar).length ≤ n :=
      Nat.le_trans (length_dropWhile_le _ _) hcs
    have hda : (cs.dropWhile Char.isAlpha).length ≤ n :=
      Nat.le_trans (length_dropWhile_le _ _) hcs
    rw [findallAux_cons, runs_cons]
    by_cases hw : isWordChar c
    · by_cases hu : c.isUpper
      · rw [if_pos (by simp [hprev, hu])]
        by_cases hm : 2 ≤ (cs.takeWhile Char.isAlpha).length ∧
            boundaryAt (cs.dropWhile Char.isAlpha) = true
        · obtain ⟨hlen, hb⟩ := hm
          obtain ⟨hT, hD⟩ := takeDrop_agree cs hb
          rw [if_pos ⟨hlen, hb⟩, if_pos hw, hT, hD,
            findallAux_boundary_irrel _ hb _ '.',
            findallAux_eq_filter_runs n _ hda (some '.') (by simp [prevOk, isWordChar])]
          have hq : qualifies (c :: cs.takeWhile Char.isAlpha) = true := by
            have h3 : 3 ≤ (c :: cs.takeWhile Char.isAlpha).length := by
              simp only [List.length_cons]
              omega
            have hca : c.isAlpha = true := by simp [Char.isAlpha, hu]
            simp [qualifies, h3, hu, hca, all_alpha_takeWhile cs]
            omega
          rw [List.filter_cons_of_pos hq]
        · rw [if_neg hm, findallAux_skip_run cs c hw,
            findallAux_eq_filter_runs n _ hdw (some '.') (by simp [prevOk, isWordChar]),
            if_pos hw]
          have hq : qualifies (c :: cs.takeWhile isWordChar) = false := by
            by_cases hb : boundaryAt (cs.dropWhile Char.isAlpha) = true
            · have hlen : ¬ 2 ≤ (cs.takeWhile Char.isAlpha).length := fun hl => hm ⟨hl, hb⟩
              rw [(takeDrop_agree cs hb).1]
              have : (c :: cs.takeWhile Char.isAlpha).length < 3 := by
                simp only [List.length_cons]
                omega
              simp [qualifies]
              omega
            · have hna := run_not_all_alpha cs (by simpa using hb)
              simp [qualifies, List.all_cons]
              intro _ _ _
              rw [List.all_eq_false] at hna
              obtain ⟨x, hx, hxa⟩ := hna
              exact ⟨x, hx, by simpa using hxa⟩
          rw [List.filter_cons_of_neg (by simp [hq])]
      · rw [if_neg (by simp [hu]), findallAux_skip_run cs c hw,
          findallAux_eq_filter_runs n _ hdw (some '.') (by simp [prevOk, isWordChar]),
          if_pos hw]
        have hq : qualifies (c :: cs.takeWhile isWordChar) = false := by
          simp [qualifies, hu]
        rw [List.filter_cons_of_neg (by simp [hq])]
    · have hu : c.isUpper = false := isUpper_false_of_not_word c (by simp [hw])
      rw [if_neg (by simp [hu]), if_neg (by simp [hw])]
      exact findallAux_eq_filter_runs n cs hcs (some c) (by simp [prevOk, hw])

theorem crawlFold_eq_mergeAll (pages : List (Option (List HtmlNode))) :
    crawlFold pages = mergeAll (pages.map process_url) := by
  simp [crawlFold, mergeAll, List.foldl_map]

theorem Counter.get_foldl_incr (ws : List String) (c : Counter) (w : String) :
    Counter.get (ws.foldl Counter.incr c) w = Counter.get c w + (ws.count w : Int) := by
  induction ws generalizing c with
  | nil => simp
  | cons u us ih =>
    simp only [List.foldl_cons]
    rw [ih, Counter.get_incr]
    by_cases h : u = w
    · simp [List.count_cons, h]
      ring
    · have : ¬ w = u := fun e => h e.symm
      simp [List.count_cons, h, this]

theorem Counter.total_foldl_incr (ws : List String) (c : Counter) :
    Counter.total (ws.foldl Counter.incr c) = Counter.total c + (ws.length : Int) := by
  induction ws generalizing c with
  | nil => simp
  | cons u us ih =>
    simp only [List.foldl_cons]
    rw [ih, Counter.total_incr]
    simp only [List.length_cons]
    push_cast
    ring

theorem Counter.mem_keys_foldl_incr (ws : List String) (c : Counter) (w : String)
    (h : w ∈ Counter.keys (ws.foldl Counter.incr c)) : w ∈ Counter.keys c ∨ w ∈ ws := by
  induction ws generalizing c with
  | nil => exact Or.inl h
  | cons u us ih =>
    simp only [List.foldl_cons] at h
    rcases ih (Counter.incr c u) h with h' | h'
    · rcases Counter.mem_keys_set c u _ w h' with h'' | h''
      · exact Or.inl h''
      · exact Or.inr (by simp [h''])
    · exact Or.inr (by simp [h'])

theorem Counter.allPos_foldl_incr (ws : List String) (c : Counter)
    (hc : Counter.AllPos c) : Counter.AllPos (ws.foldl Counter.incr c) := by
  induction ws generalizing c with
  | nil => exact hc
  | cons u us ih =>
    simp only [List.foldl_cons]
    exact ih _ (Counter.allPos_incr c u hc)

theorem Counter.keys_set_cases (c : Counter) (u : String) (v : Int) :
    Counter.keys (Counter.set c u v) =
      if u ∈ Counter.keys c then Counter.keys c else Counter.keys c ++ [u] := by
  induction c with
  | nil => simp [Counter.set, Counter.keys]
  | cons p ps ih =>
    by_cases hp : p.1 = u
    · rw [show Counter.set (p :: ps) u v = (u, v) :: ps by simp [Counter.set, hp],
        Counter.keys_cons, Counter.keys_cons, if_pos (by simp [hp.symm])]
      simp [hp]
    · rw [show Counter.set (p :: ps) u v = p :: Counter.set ps u v by simp [Counter.set, hp],
        Counter.keys_cons, Counter.keys_cons, ih]
      have hne : ¬ u = p.1 := fun e => hp e.symm
      by_cases hm : u ∈ Counter.keys ps
      · simp [hm, hne]
      · simp [hm, hne]

theorem Counter.nodupKeys_set (c : Counter) (u : String) (v : Int)
    (hc : Counter.NodupKeys c) : Counter.NodupKeys (Counter.set c u v) := by
  unfold Counter.NodupKeys
  rw [Counter.keys_set_cases]
  by_cases hm : u ∈ Counter.keys c
  · simpa [hm] using hc
  · rw [if_neg hm]
    refine List.Nodup.append hc (List.nodup_singleton u) ?_
    intro x hx hx'
    simp at hx'
    exact hm (hx' ▸ hx)

theorem Counter.nodupKeys_incr (c : Counter) (w : String) (hc : Counter.NodupKeys c) :
    Counter.NodupKeys (Counter.incr c w) :=
  Counter.nodupKeys_set c w _ hc

theorem Counter.nodupKeys_foldl_incr (ws : List String) (c : Counter)
    (hc : Counter.NodupKeys c) : Counter.NodupKeys (ws.foldl Counter.incr c) := by
  induction ws generalizing c with
  | nil => exact hc
  | cons u us ih =>
    simp only [List.foldl_cons]
    exact ih _ (Counter.nodupKeys_incr c u hc)

theorem Counter.get_foldl_update (l : List Counter) (a : Counter) (w : String)
    (hl : ∀ c ∈ l, Counter.NodupKeys c) :
    Counter.get (l.foldl Counter.update a) w =
      Counter.get a w + (l.map (fun c => Counter.get c w)).sum := by
  induction l generalizing a with
  | nil => simp
  | cons b bs ih =>
    simp only [List.foldl_cons, List.map_cons, List.sum_cons]
    rw [ih (Counter.update a b) (fun c hc => hl c (by simp [hc])),
      Counter.get_update a b (hl b (by simp)) w]
    ring

theorem get_procSentence (c : Counter) (s : List Char) (w : String) :
    Counter.get (procSentence c s) w =
      Counter.get c w + ((((sentWords s).drop 1).count w : Int)) :=
  Counter.get_foldl_incr _ _ _

theorem total_procSentence (c : Counter) (s : List Char) :
    Counter.total (procSentence c s) =
      Counter.total c + (((sentWords s).drop 1).length : Int) :=
  Counter.total_foldl_incr _ _

theorem get_foldl_procSentence (l : List (List Char)) (c : Counter) (w : String) :
    Counter.get (l.foldl procSentence c) w =
      Counter.get c w + (l.map (fun s => ((((sentWords s).drop 1).count w : Int)))).sum := by
  induction l generalizing c with
  | nil => simp
  | cons s ss ih =>
    simp only [List.foldl_cons, List.map_cons, List.sum_cons]
    rw [ih (procSentence c s), get_procSentence]
    ring

theorem mem_keys_foldl_procSentence (l : List (List Char)) (c : Counter) (w : String)
    (h : w ∈ Counter.keys (l.foldl procSentence c)) :
    w ∈ Counter.keys c ∨ ∃ s ∈ l, w ∈ sentWords s := by
  induction l generalizing c with
  | nil => exact Or.inl h
  | cons s ss ih =>
    simp only [List.foldl_cons] at h
    rcases ih (procSentence c s) h with h' | h'
    · rcases Counter.mem_keys_foldl_incr _ c w h' with h'' | h''
      · exact Or.inl h''
      · exact Or.inr ⟨s, by simp, List.drop_subset 1 _ h''⟩
    · obtain ⟨s', hs', hw⟩ := h'
      exact Or.inr ⟨s', by simp [hs'], hw⟩

theorem allPos_foldl_procSentence (l : List (List Char)) (c : Counter)
    (hc : Counter.AllPos c) : Counter.AllPos (l.foldl procSentence c) := by
  induction l generalizing c with
  | nil => exact hc
  | cons s ss ih =>
    exact ih _ (Counter.allPos_foldl_incr _ c hc)

theorem nodupKeys_foldl_procSentence (l : List (List Char)) (c : Counter)
    (hc : Counter.NodupKeys c) : Counter.NodupKeys (l.foldl procSentence c) := by
  induction l generalizing c with
  | nil => exact hc
  | cons s ss ih =>
    exact ih _ (Counter.nodupKeys_foldl_incr _ c hc)

theorem allPos_countText (t : String) : Counter.AllPos (countText t) :=
  allPos_foldl_procSentence _ _ (by intro p hp; simp [Counter.empty] at hp)

theorem nodupKeys_countText (t : String) : Counter.NodupKeys (countText t) :=
  nodupKeys_foldl_procSentence _ _ (by simp [Counter.empty, Counter.NodupKeys, Counter.keys])

/-- Every per-page counter has strictly positive counts. -/
theorem allPos_process_url (f : Option (List HtmlNode)) : Counter.AllPos (process_url f) := by
  cases f with
  | none =>
    intro p hp
    simp [process_url, Counter.empty] at hp
  | some doc => exact allPos_countText _

/-- Every per-page counter is a genuine Counter: one binding per key. -/
theorem nodupKeys_process_url (f : Option (List HtmlNode)) :
    Counter.NodupKeys (process_url f) := by
  cases f with
  | none => simp [process_url, Counter.empty, Counter.NodupKeys, Counter.keys]
  | some doc => exact nodupKeys_countText _

theorem insertByCount_perm (p : String × Int) (l : List (String × Int)) :
    (insertByCount p l).Perm (p :: l) := by
  induction l with
  | nil => simp [insertByCount]
  | cons q qs ih =>
    by_cases h : q.2 ≤ p.2
    · simp [insertByCount, h]
    · rw [show insertByCount p (q :: qs) = q :: insertByCount p qs by
        simp [insertByCount, h]]
      exact (ih.cons q).trans (List.Perm.swap p q qs)

theorem most_common_perm (c : Counter) : (Counter.most_common c).Perm c := by
  induction c with
  | nil => simp [Counter.most_common]
  | cons p ps ih =>
    show (insertByCount p (Counter.most_common ps)).Perm (p :: ps)
    exact (insertByCount_perm p _).trans (ih.cons p)

theorem mem_insertByCount (p x : String × Int) (l : List (String × Int))
    (h : x ∈ insertByCount p l) : x = p ∨ x ∈ l := by
  have := (insertByCount_perm p l).mem_iff.mp h
  simpa using this

theorem insertByCount_pairwise (p : String × Int) (l : List (String × Int))
    (h : List.Pairwise (fun a b : String × Int => b.2 ≤ a.2) l) :
    List.Pairwise (fun a b : String × Int => b.2 ≤ a.2) (insertByCount p l) := by
  induction l with
  | nil => simp [insertByCount]
  | cons q qs ih =>
    rcases List.pairwise_cons.mp h with ⟨hq, hqs⟩
    by_cases hle : q.2 ≤ p.2
    · rw [show insertByCount p (q :: qs) = p :: q :: qs by simp [insertByCount, hle]]
      refine List.pairwise_cons.mpr ⟨?_, h⟩
      intro x hx
      rcases List.mem_cons.mp hx with hx | hx
      · exact hx ▸ hle
      · exact Int.le_trans (hq x hx) hle
    · rw [show insertByCount p (q :: qs) = q :: insertByCount p qs by
        simp [insertByCount, hle]]
      refine List.pairwise_cons.mpr ⟨?_, ih hqs⟩
      intro x hx
      rcases mem_insertByCount p x qs hx with hx | hx
      · exact hx ▸ Int.le_of_lt (Int.lt_of_not_ge hle)
      · exact hq x hx

theorem most_common_pairwise (c : Counter) :
    List.Pairwise (fun a b : String × Int => b.2 ≤ a.2) (Counter.most_common c) := by
  induction c with
  | nil => simp [Counter.most_common]
  | cons p ps ih => exact insertByCount_pairwise p _ ih

theorem insertByCount_filter (p : String × Int) (l : List (String × Int)) (k : Int)
    (hl : List.Pairwise (fun a b : String × Int => b.2 ≤ a.2) l) :
    (insertByCount p l).filter (fun q => q.2 = k) =
      if p.2 = k then p :: l.filter (fun q => q.2 = k)
      else l.filter (fun q => q.2 = k) := by
  induction l with
  | nil => by_cases h : p.2 = k <;> simp [insertByCount, List.filter, h]
  | cons q qs ih =>
    rcases List.pairwise_cons.mp hl with ⟨hq, hqs⟩
    by_cases hle : q.2 ≤ p.2
    · rw [show insertByCount p (q :: qs) = p :: q :: qs by simp [insertByCount, hle]]
      by_cases h : p.2 = k <;> simp [List.filter_cons, h]
    · rw [show insertByCount p (q :: qs) = q :: insertByCount p qs by
        simp [insertByCount, hle]]
      have hpk : p.2 < q.2 := Int.lt_of_not_ge hle
      by_cases hqk : q.2 = k
      · have hpnk : ¬ p.2 = k := fun e => by omega
        simp only [List.filter_cons, ih hqs]
        simp [hqk, hpnk]
      · simp only [List.filter_cons, ih hqs]
        by_cases h : p.2 = k <;> simp [hqk, h]

theorem most_common_filter (c : Counter) (k : Int) :
    (Counter.most_common c).filter (fun q => q.2 = k) = c.filter (fun q => q.2 = k) := by
  induction c with
  | nil => simp [Counter.most_common]
  | cons p ps ih =>
    show (insertByCount p (Counter.most_common ps)).filter (fun q => q.2 = k) = _
    rw [insertByCount_filter p _ k (most_common_pairwise ps), ih]
    by_cases h : p.2 = k <;> simp [List.filter_cons, h]

theorem allPos_crawl_from (pages : List (Option (List HtmlNode))) (a : Counter)
    (ha : Counter.AllPos a) :
    Counter.AllPos (pages.foldl (fun acc f => Counter.update acc (process_url f)) a) := by
  induction pages generalizing a with
  | nil => exact ha
  | cons f fs ih =>
    exact ih _ (Counter.allPos_update a _ ha (allPos_process_url f))

/-- C1: for every fixed multiset of per-page WordCounts, the global
WordCount produced by the crawl's fold (`Counter.update` once per completed
page, lines 89–99) equals the word-by-word sum of all per-page WordCounts,
and is the same for every completion order in which they are merged. -/
theorem crawl_merge_is_orderless_sum (l : List Counter)
    (hl : ∀ c ∈ l, Counter.NodupKeys c) :
    (∀ w : String, Counter.get (mergeAll l) w = (l.map (fun c => Counter.get c w)).sum) ∧
    (∀ l' : List Counter, l.Perm l' →
      ∀ w : String, Counter.get (mergeAll l') w = Counter.get (mergeAll l) w) := by
  have key : ∀ (m : List Counter), (∀ c ∈ m, Counter.NodupKeys c) → ∀ w : String,
      Counter.get (mergeAll m) w = (m.map (fun c => Counter.get c w)).sum := by
    intro m hm w
    have := Counter.get_foldl_update m Counter.empty w hm
    simpa [mergeAll, Counter.empty, Counter.get] using this
  refine ⟨key l hl, ?_⟩
  intro l' hperm w
  have hl' : ∀ c ∈ l', Counter.NodupKeys c := fun c hc => hl c (hperm.symm.subset hc)
  rw [key l hl w, key l' hl' w]
  exact ((hperm.map (fun c => Counter.get c w)).symm).sum_eq

/-- Witness for C1: two concrete per-page counters merged in both orders give
the pointwise sums. -/
theorem crawl_merge_is_orderless_sum_witness :
    Counter.get (mergeAll [[("Foo", 2)], [("Foo", 1), ("Bar", 3)]]) "Foo" = 3 ∧
    Counter.get (mergeAll [[("Foo", 1), ("Bar", 3)], [("Foo", 2)]]) "Foo" = 3 := by
  have h := crawl_merge_is_orderless_sum [[("Foo", 2)], [("Foo", 1), ("Bar", 3)]]
    (by intro c hc; fin_cases hc <;> simp [Counter.NodupKeys, Counter.keys])
  constructor
  · rw [h.1 "Foo"]
    decide
  · rw [h.2 [[("Foo", 1), ("Bar", 3)], [("Foo", 2)]] (List.Perm.swap _ _ _) "Foo",
      h.1 "Foo"]
    decide

/-- C3: the tokens the extractor's regex finds in a sentence are exactly the
maximal word-boundary-delimited substrings (maximal word-character runs) that
are all-ASCII-alphabetic, start with an uppercase letter, and have length at
least 3, in left-to-right order of occurrence. -/
theorem findall_tokens_are_qualifying_runs (s : List Char) :
    findall s = (runs s).filter qualifies :=
  findallAux_eq_filter_runs s.length s (Nat.le_refl _) none rfl

/-- C5: when the sitemap fetch raises (transport error or non-success
status) or the body is malformed XML, the reader logs an error and returns
the empty sequence; being a total function, it raises nothing to the
caller. -/
theorem sitemap_failure_yields_empty (f : SitemapFetch)
    (h : f = SitemapFetch.err ∨ f = SitemapFetch.ok none) :
    get_urls_result f = [] ∧ get_urls_logs f = [LogLevel.error] := by
  rcases h with h | h <;> subst h <;> exact ⟨rfl, rfl⟩

/-- Witness for C5 at both failure shapes. -/
theorem sitemap_failure_yields_empty_witness :
    (get_urls_result SitemapFetch.err = [] ∧
      get_urls_logs SitemapFetch.err = [LogLevel.error]) ∧
    get_urls_result (SitemapFetch.ok none) = [] :=
  ⟨sitemap_failure_yields_empty SitemapFetch.err (Or.inl rfl),
    (sitemap_failure_yields_empty (SitemapFetch.ok none) (Or.inr rfl)).1⟩

/-- C8: the process exit status is non-zero exactly when writing the report
fails with an I/O error (in which case an error is logged); it does not
depend on any sitemap or page fetch outcome, so no per-sitemap or per-page
failure causes a non-zero exit. -/
theorem exit_nonzero_iff_write_fails (env : Env) :
    ((mainRun env).2 ≠ 0 ↔ env.writeOk = false) ∧
    (env.writeOk = false → mainWriteLog env = LogLevel.error) ∧
    ∀ env' : Env, env'.writeOk = env.writeOk → (mainRun env').2 = (mainRun env).2 := by
  refine ⟨?_, ?_, ?_⟩
  · cases h : env.writeOk <;> simp [mainRun, h]
  · intro h
    simp [mainWriteLog, h]
  · intro env' h
    simp [mainRun, h]

/-- C10: every WordCount the system produces — each per-page counter from
`process_url` and the global total after every sequence of merge steps —
binds each of its words to a strictly positive count. -/
theorem counters_all_positive :
    (∀ f : Option (List HtmlNode), Counter.AllPos (process_url f)) ∧
    ∀ pages : List (Option (List HtmlNode)), Counter.AllPos (crawlFold pages) := by
  refine ⟨allPos_process_url, ?_⟩
  intro pages
  exact allPos_crawl_from pages Counter.empty (by intro p hp; simp [Counter.empty] at hp)

theorem foldl_procSentence_no_tokens (l : List (List Char))
    (h : ∀ s ∈ l, sentWords s = []) :
    l.foldl procSentence Counter.empty = Counter.empty := by
  induction l with
  | nil => rfl
  | cons s ss ih =>
    simp only [List.foldl_cons]
    have h1 : procSentence Counter.empty s = Counter.empty := by
      unfold procSentence
      rw [h s (by simp)]
      rfl
    rw [h1]
    exact ih (fun s' hs' => h s' (by simp [hs']))

theorem countText_empty_of_no_tokens (t : String)
    (h : ((sentSplit t.toList).map sentWords).flatten = []) :
    countText t = Counter.empty := by
  unfold countText
  refine foldl_procSentence_no_tokens _ ?_
  intro s hs
  refine List.eq_nil_iff_forall_not_mem.mpr ?_
  intro x hx
  have hmem : x ∈ ((sentSplit t.toList).map sentWords).flatten := by
    rw [List.mem_flatten]
    exact ⟨sentWords s, List.mem_map_of_mem _ hs, hx⟩
  rw [h] at hmem
  simp at hmem

/-- C2: within each sentence the first qualifying token is discarded and
every subsequent qualifying token adds exactly 1 to its own count; a
sentence with at most one qualifying token contributes nothing, and one with
N ≥ 2 tokens contributes exactly N − 1 counts in all; the example input
yields exactly the WordCount {World: 1, Brown: 1, Fox: 1}. -/
theorem sentence_counting_drops_first_token :
    (∀ (c : Counter) (s : List Char) (w : String),
      Counter.get (procSentence c s) w =
        Counter.get c w + (((sentWords s).drop 1).count w : Int)) ∧
    (∀ s : List Char, 2 ≤ (sentWords s).length →
      Counter.total (procSentence Counter.empty s) = ((sentWords s).length : Int) - 1) ∧
    (∀ s : List Char, (sentWords s).length ≤ 1 →
      procSentence Counter.empty s = Counter.empty) ∧
    countText "Hello World. Quick Brown Fox jumps." =
      [("World", 1), ("Brown", 1), ("Fox", 1)] := by
  refine ⟨get_procSentence, ?_, ?_, by decide⟩
  · intro s h
    rw [total_procSentence]
    have h0 : Counter.total Counter.empty = 0 := rfl
    rw [h0, List.length_drop]
    push_cast [Nat.cast_sub (by omega : 1 ≤ (sentWords s).length)]
    ring
  · intro s h
    unfold procSentence
    rw [List.drop_eq_nil_of_le h]
    rfl

/-- C6: a failed page fetch returns the empty WordCount (with a warning
logged) and raises nothing, and a page that fetches successfully but has
zero qualifying words yields the same empty WordCount — so both contribute
identically (nothing) to any global total they are merged into. -/
theorem page_failure_yields_empty :
    (process_url none = Counter.empty ∧ process_url_logs none = [LogLevel.warning]) ∧
    (∀ doc : List HtmlNode, pageTokens doc = [] →
      process_url (some doc) = process_url none) ∧
    ∀ g : Counter, Counter.update g (process_url none) = g := by
  refine ⟨⟨rfl, rfl⟩, ?_, fun g => rfl⟩
  intro doc h
  show countText (getText (removeSS doc)) = _
  rw [countText_empty_of_no_tokens _ (by simpa [pageTokens] using h)]
  rfl

/-- Witness for C6: a concrete page with no qualifying words contributes the
same empty counter as a failed fetch. -/
theorem page_failure_yields_empty_witness :
    process_url (some [HtmlNode.text "no capital words here."]) = process_url none := by
  refine page_failure_yields_empty.2.1 _ ?_
  simp only [pageTokens, getText, removeSS, textsList]
  decide

/-- C7: the report is one `word`, tab, `count`, newline line per counter
entry, entries ordered by descending count, ties kept in the stable,
deterministic insertion order (Python's stable sort); in the example both
count-5 words precede the count-1 word. -/
theorem report_sorted_desc_stable (c : Counter) :
    writeReport c =
      String.join ((Counter.most_common c).map
        (fun p => p.1 ++ "\t" ++ toString p.2 ++ "\n")) ∧
    List.Pairwise (fun a b : String × Int => b.2 ≤ a.2) (Counter.most_common c) ∧
    (Counter.most_common c).Perm c ∧
    (∀ k : Int, (Counter.most_common c).filter (fun q => q.2 = k) =
      c.filter (fun q => q.2 = k)) ∧
    Counter.most_common [("Apple", 5), ("Banana", 5), ("Cherry", 1)] =
      [("Apple", 5), ("Banana", 5), ("Cherry", 1)] := by
  refine ⟨?_, most_common_pairwise c, most_common_perm c, most_common_filter c, by decide⟩
  rfl

theorem removeSS_agree : ∀ d₁ d₂ : List HtmlNode, agreeOutsideSS d₁ d₂ = true →
    removeSS d₁ = removeSS d₂
  | [], [], _ => rfl
  | HtmlNode.text s :: r, HtmlNode.text s' :: r', h => by
    simp only [agreeOutsideSS, Bool.and_eq_true, decide_eq_true_eq] at h
    simp only [removeSS]
    rw [h.1, removeSS_agree r r' h.2]
  | HtmlNode.elem t ch :: r, HtmlNode.elem t' ch' :: r', h => by
    simp only [agreeOutsideSS, Bool.and_eq_true, Bool.or_eq_true, decide_eq_true_eq] at h
    obtain ⟨⟨ht, hch⟩, hr⟩ := h
    subst ht
    simp only [removeSS]
    by_cases hss : t = "script" ∨ t = "style"
    · rw [if_pos hss, if_pos hss, removeSS_agree r r' hr]
    · rcases hch with hch | hch
      · exact absurd hch hss
      · rw [if_neg hss, if_neg hss, removeSS_agree ch ch' hch, removeSS_agree r r' hr]
  | [], HtmlNode.text _ :: _, h => by simp [agreeOutsideSS] at h
  | [], HtmlNode.elem _ _ :: _, h => by simp [agreeOutsideSS] at h
  | HtmlNode.text _ :: _, [], h => by simp [agreeOutsideSS] at h
  | HtmlNode.elem _ _ :: _, [], h => by simp [agreeOutsideSS] at h
  | HtmlNode.text _ :: _, HtmlNode.elem _ _ :: _, h => by simp [agreeOutsideSS] at h
  | HtmlNode.elem _ _ :: _, HtmlNode.text _ :: _, h => by simp [agreeOutsideSS] at h

/-- C9: script and style contents are removed before text extraction — the
extracted counts are identical for any two documents that agree outside
script/style contents, and every counted key is a qualifying token of the
script/style-free text; hence a word occurring only inside script or style
elements never appears as a key. -/
theorem script_style_never_counted :
    (∀ d₁ d₂ : List HtmlNode, agreeOutsideSS d₁ d₂ = true →
      process_url (some d₁) = process_url (some d₂)) ∧
    ∀ (doc : List HtmlNode) (w : String),
      w ∈ Counter.keys (process_url (some doc)) → w ∈ pageTokens doc := by
  constructor
  · intro d₁ d₂ h
    show countText (getText (removeSS d₁)) = countText (getText (removeSS d₂))
    rw [removeSS_agree d₁ d₂ h]
  · intro doc w h
    have h' := mem_keys_foldl_procSentence
      (sentSplit (getText (removeSS doc)).toList) Counter.empty w h
    rcases h' with h' | h'
    · simp [Counter.empty, Counter.keys] at h'
    · obtain ⟨s, hs, hw⟩ := h'
      simp only [pageTokens, List.mem_flatten]
      exact ⟨sentWords s, List.mem_map_of_mem _ hs, hw⟩

theorem findallLoc_eq_preorder : ∀ l : List XmlElem,
    findallLoc l = (preorder l).filter (fun e => XmlElem.tag e = locTag)
  | [] => by simp [findallLoc, preorder]
  | XmlElem.mk t x ch :: rest => by
    simp only [findallLoc, preorder, List.filter_cons, List.filter_append]
    rw [findallLoc_eq_preorder ch, findallLoc_eq_preorder rest]
    by_cases h : t = locTag
    · simp [XmlElem.tag, h]
    · simp [XmlElem.tag, h]

/-- C4 counterexample: a sitemap whose `<loc>` holds whitespace-only text
`"   "`.  Python truthiness tests the untrimmed text, which is truthy, so the
code keeps the entry and `strip()` turns it into the empty string: the reader
returns `[""]`, while the claim — which discards empty values — requires
`[]`. -/
theorem sitemap_whitespace_loc_counterexample :
    get_urls_from_sitemap (XmlElem.mk "{http://www.sitemaps.org/schemas/sitemap/0.9}urlset" none
        [XmlElem.mk "{http://www.sitemaps.org/schemas/sitemap/0.9}url" none
          [XmlElem.mk locTag (some "   ") []]]) = [""] ∧
    fetchSitemapURLs_claimed (XmlElem.mk "{http://www.sitemaps.org/schemas/sitemap/0.9}urlset" none
        [XmlElem.mk "{http://www.sitemaps.org/schemas/sitemap/0.9}url" none
          [XmlElem.mk locTag (some "   ") []]]) = [] := by
  constructor
  · simp only [get_urls_from_sitemap, findallLoc, XmlElem.children, XmlElem.text, locTag]
    decide
  · simp only [fetchSitemapURLs_claimed, findallLoc, XmlElem.children, XmlElem.text, locTag]
    decide

/-- C4 amended: for every well-formed sitemap document, the reader returns,
in document order, the trimmed text of every `loc` element of the sitemap
0.9 namespace whose text is present and non-empty before trimming (Python
truthiness); missing text is discarded, but whitespace-only text survives
trimming as an empty-string entry.  The claim's example document yields
exactly its two URLs. -/
theorem sitemap_reader_amended (root : XmlElem) :
    get_urls_from_sitemap root =
      ((preorder root.children).filter (fun e => XmlElem.tag e = locTag)).filterMap
        (fun e => match XmlElem.text e with
          | none => none
          | some t => if t = "" then none else some (pyStrip t)) ∧
    get_urls_from_sitemap (XmlElem.mk "{http://www.sitemaps.org/schemas/sitemap/0.9}urlset" none
      [XmlElem.mk "{http://www.sitemaps.org/schemas/sitemap/0.9}url" none
        [XmlElem.mk locTag (some "https://example.com/a") []],
       XmlElem.mk "{http://www.sitemaps.org/schemas/sitemap/0.9}url" none
        [XmlElem.mk locTag (some "https://example.com/b") []]]) =
      ["https://example.com/a", "https://example.com/b"] := by
  constructor
  · unfold get_urls_from_sitemap
    rw [findallLoc_eq_preorder]
  · simp only [get_urls_from_sitemap, findallLoc, XmlElem.children, XmlElem.text, locTag]
    decide
